import Mathlib

/-!
Shallow embedding of the query-partitioning and result-streaming engine of
the github-downloader repository (src/github.ts), together with theorems
checking the natural-language specification against it.

Modelling conventions:
* JavaScript object fields that are optional are modelled by `JSField`:
  a key can be absent, present with value `undefined`, or present with a
  defined value.  The `in` operator is `JSField.isIn`; reading the property
  is `JSField.read` (absent and undefined both read as `none`).
* JavaScript `Date` values are modelled by their millisecond timestamp as a
  `Nat` (milliseconds since the Unix epoch; the program only manipulates
  repository creation dates, which lie at or after the epoch).  On this
  domain the `Date` constructor's truncation of fractional milliseconds
  coincides with `Nat` division.
* JavaScript numbers appearing in queries are integers; they are modelled
  by `Int`.
* The remote count endpoint (`findRepoCount`) is modelled by an explicit
  oracle function `RepoSearchQuery → Nat`; the real call serializes the
  query and reads back `total_count`.
* The recursive partitioner is modelled with an explicit fuel parameter;
  exhausting the fuel models non-termination of the recursion.
* The floating-point division producing `percentageProgress` is modelled by
  exact division in `ℚ` (note Lean's convention `x / 0 = 0` where JavaScript
  produces `NaN`; both differ from `1`).
-/

namespace GithubDownloader

/-- A field of a JavaScript object: the key can be absent, present with the
value `undefined`, or present with a defined value. -/
inductive JSField (α : Type) where
  | absent : JSField α
  | undef : JSField α
  | val : α → JSField α
deriving DecidableEq

/-- The JavaScript `in` operator: true when the key is present, even if the
stored value is `undefined`. -/
def JSField.isIn {α : Type} : JSField α → Bool
  | .absent => false
  | .undef => true
  | .val _ => true

/-- Reading the property: an absent key and an `undefined` value both read
back as `undefined` (here `none`). -/
def JSField.read {α : Type} : JSField α → Option α
  | .absent => none
  | .undef => none
  | .val a => some a

/-- Functorial action on a field's value. -/
def JSField.map {α β : Type} (f : α → β) : JSField α → JSField β
  | .absent => .absent
  | .undef => .undef
  | .val a => .val (f a)

/-- `RepoSearchValue` from src/github.ts: `number | Date | string`.
Dates carry their millisecond timestamp; numbers are integers. -/
inductive RepoSearchValue where
  | num : Int → RepoSearchValue
  | date : Nat → RepoSearchValue
  | str : String → RepoSearchValue
deriving DecidableEq

/-- JavaScript truthiness of a `RepoSearchValue`: the number 0 and the empty
string are falsy; a `Date` is an object and objects are always truthy. -/
def RepoSearchValue.truthy : RepoSearchValue → Bool
  | .num n => n != 0
  | .date _ => true
  | .str s => s != ""

/-- Truthiness of reading a field: an absent or `undefined` field is falsy,
otherwise the value's own truthiness decides. -/
def jsTruthyField (f : JSField RepoSearchValue) : Bool :=
  match f.read with
  | none => false
  | some v => v.truthy

/-- Left-pad the decimal rendering of `n` with zeros to `width` digits. -/
def padNum (width n : Nat) : String :=
  let s := toString n
  String.mk (List.replicate (width - s.length) '0') ++ s

/-- Civil date (year, month, day) from a count of days since 1970-01-01
(proleptic Gregorian, valid for non-negative day counts). -/
def civilFromDays (z : Nat) : Nat × Nat × Nat :=
  let z' := z + 719468
  let era := z' / 146097
  let doe := z' % 146097
  let yoe := (doe - doe / 1460 + doe / 36524 - doe / 146096) / 365
  let y := yoe + era * 400
  let doy := doe - (365 * yoe + yoe / 4 - yoe / 100)
  let mp := (5 * doy + 2) / 153
  let d := doy - (153 * mp + 2) / 5 + 1
  let m := if mp < 10 then mp + 3 else mp - 9
  (if m ≤ 2 then y + 1 else y, m, d)

/-- `Date.prototype.toISOString`: UTC ISO-8601 with millisecond precision
and a literal Z suffix, for timestamps at or after the epoch. -/
def toISOString (ms : Nat) : String :=
  let days := ms / 86400000
  let rem := ms % 86400000
  let ymd := civilFromDays days
  padNum 4 ymd.1 ++ "-" ++ padNum 2 ymd.2.1 ++ "-" ++ padNum 2 ymd.2.2 ++ "T" ++
    padNum 2 (rem / 3600000) ++ ":" ++ padNum 2 (rem % 3600000 / 60000) ++ ":" ++
    padNum 2 (rem % 60000 / 1000) ++ "." ++ padNum 3 (rem % 1000) ++ "Z"

/-- Epoch milliseconds of an ISO-8601 timestamp given by civil components
and a timezone offset in minutes (the standard meaning of an offset
suffix such as +01:00).  Defined for instants at or after the epoch. -/
def zonedToMs (y m d hh mm ss ms : Nat) (offsetMinutes : Int) : Int :=
  let yearsBefore := y - 1970
  let leapsBefore := ((y - 1) / 4 - (y - 1) / 100 + (y - 1) / 400) -
    (1969 / 4 - 1969 / 100 + 1969 / 400)
  let monthDays : List Nat := [31, 28, 31, 30, 31, 30, 31, 31, 30, 31, 30]
  let isLeap : Bool := (y % 4 == 0 && y % 100 != 0) || y % 400 == 0
  let daysInMonths := ((monthDays.take (m - 1)).sum) +
    (if 2 < m && isLeap then 1 else 0)
  let days := yearsBefore * 365 + leapsBefore + daysInMonths + (d - 1)
  ((days * 86400 + hh * 3600 + mm * 60 + ss) * 1000 + ms : Int) -
    offsetMinutes * 60000

/-- `repoSearchValueToString` from src/github.ts: a falsy value (undefined,
the number 0, the empty string) renders as the wildcard; a `Date` renders
via `toISOString`; anything else via `toString`. -/
def repoSearchValueToString (value : Option RepoSearchValue) : String :=
  match value with
  | none => "*"
  | some v =>
    if !v.truthy then "*"
    else
      match v with
      | .num n => toString n
      | .date ms => toISOString ms
      | .str s => s

/-- `RepoSearchSingleValueKeyword<T>`: an object with one optional field
`value`. -/
structure RepoSearchSingleValueKeyword (α : Type) where
  value : JSField α
deriving DecidableEq

/-- `RepoSearchRangeKeyword<T>`: an object with optional fields `minValue`
and `maxValue`. -/
structure RepoSearchRangeKeyword (α : Type) where
  minValue : JSField α
  maxValue : JSField α
deriving DecidableEq

/-- `repoSearchSingleValueKeywordToString` from src/github.ts. -/
def repoSearchSingleValueKeywordToString
    (keyword : RepoSearchSingleValueKeyword RepoSearchValue) : String :=
  if !jsTruthyField keyword.value then ""
  else repoSearchValueToString keyword.value.read

/-- `repoSearchRangeKeywordToString` from src/github.ts: when both bounds
read as falsy the keyword renders as the empty string, otherwise as
`min..max` where each side is rendered by `repoSearchValueToString`. -/
def repoSearchRangeKeywordToString
    (keyword : RepoSearchRangeKeyword RepoSearchValue) : String :=
  if !jsTruthyField keyword.minValue && !jsTruthyField keyword.maxValue then ""
  else
    repoSearchValueToString keyword.minValue.read ++ ".." ++
      repoSearchValueToString keyword.maxValue.read

/-- The union `RepoSearchRangeKeyword<T> | RepoSearchSingleValueKeyword<T>`.
A range-shaped object never carries a `value` key and a single-value-shaped
object never carries `minValue`/`maxValue` keys, which the dispatch below
relies on. -/
inductive RepoSearchKeyword where
  | range : RepoSearchRangeKeyword RepoSearchValue → RepoSearchKeyword
  | single : RepoSearchSingleValueKeyword RepoSearchValue → RepoSearchKeyword
deriving DecidableEq

/-- `repoSearchKeywordToString` from src/github.ts: dispatches on
`"minValue" in keyword`, then `"value" in keyword`, and otherwise throws
`Error("Unexpected code execution path.")` (modelled as `Except.error`).
A range object whose `minValue` key is absent has neither key, so it falls
through to the throwing branch. -/
def repoSearchKeywordToString : RepoSearchKeyword → Except String String
  | .range keyword =>
    if keyword.minValue.isIn then .ok (repoSearchRangeKeywordToString keyword)
    else .error "Unexpected code execution path."
  | .single keyword =>
    if keyword.value.isIn then .ok (repoSearchSingleValueKeywordToString keyword)
    else .error "Unexpected code execution path."

/-- `RepoSearchQuery` from src/github.ts: `created` is required, the other
fields are optional (an optional field is modelled as present or absent;
`created` stores `Date` values as epoch milliseconds). -/
structure RepoSearchQuery where
  created : RepoSearchRangeKeyword Nat
  language : Option (List (RepoSearchSingleValueKeyword String))
  stars : Option (RepoSearchRangeKeyword Int)
  forks : Option (RepoSearchRangeKeyword Int)
deriving DecidableEq

/-- Lift a typed range keyword into one over `RepoSearchValue`. -/
def rangeKeywordValues {α : Type} (f : α → RepoSearchValue)
    (k : RepoSearchRangeKeyword α) : RepoSearchRangeKeyword RepoSearchValue :=
  ⟨k.minValue.map f, k.maxValue.map f⟩

/-- `Object.entries(query)` followed by the flattening of array-valued
fields, as performed by `repoSearchQueryToString`.  Key order is the
interface's declaration order; absent optional fields contribute no entry. -/
def queryEntries (q : RepoSearchQuery) : List (String × RepoSearchKeyword) :=
  [("created", .range (rangeKeywordValues RepoSearchValue.date q.created))] ++
    (match q.language with
     | some ls => ls.map (fun k => ("language", .single ⟨k.value.map RepoSearchValue.str⟩))
     | none => []) ++
    (match q.stars with
     | some k => [("stars", .range (rangeKeywordValues RepoSearchValue.num k))]
     | none => []) ++
    (match q.forks with
     | some k => [("forks", .range (rangeKeywordValues RepoSearchValue.num k))]
     | none => [])

/-- `repoSearchQueryToString` from src/github.ts: serialize every entry
(the first throwing entry aborts, as in JavaScript `Array.prototype.map`),
drop empty renderings, render `name:value`, and join with single spaces. -/
def repoSearchQueryToString (q : RepoSearchQuery) : Except String String := do
  let rendered ← (queryEntries q).mapM (fun e => do
    let s ← repoSearchKeywordToString e.2
    pure (e.1, s))
  pure (String.intercalate " "
    (((rendered.filter (fun e => e.2 != "")).map (fun e => e.1 ++ ":" ++ e.2))))

/-- `GITHUB_SEARCH_MAX_PAGE_SIZE` from src/const.ts. -/
def GITHUB_SEARCH_MAX_PAGE_SIZE : Nat := 100

/-- `SearchReposPartition` from src/github.ts (dates as epoch ms). -/
structure SearchReposPartition where
  count : Nat
  startDate : Nat
  endDate : Nat
deriving DecidableEq

/-- Failure modes of the fueled partitioner: the synchronous throw on a
missing creation bound, and fuel exhaustion (modelling a recursion that
never returns). -/
inductive PartitionError where
  | configError : PartitionError
  | outOfFuel : PartitionError
deriving DecidableEq

/-- The midpoint computation `new Date(start.getTime() + (end.getTime() -
start.getTime()) / 2)`; on `Nat` timestamps with `startMs ≤ endMs` the
constructor's truncation of a fractional millisecond is `Nat` division. -/
def midDate (startMs endMs : Nat) : Nat := startMs + (endMs - startMs) / 2

/-- The left recursive query: `{...query, created: {...query.created,
maxValue: midDate}}`. -/
def leftSubQuery (q : RepoSearchQuery) (mid : Nat) : RepoSearchQuery :=
  { q with created := { q.created with maxValue := .val mid } }

/-- The right recursive query: `{...query, created: {...query.created,
minValue: midDate}}`. -/
def rightSubQuery (q : RepoSearchQuery) (mid : Nat) : RepoSearchQuery :=
  { q with created := { q.created with minValue := .val mid } }

/-- `partitionRepoSearchQueryHelper` from src/github.ts, with the remote
count endpoint abstracted as `oracle` and an explicit fuel bound on the
recursion depth.  Returns the result together with the ordered list of
queries submitted to the count oracle (one entry per `findRepoCount` call,
including the calls made before an error aborts the recursion).  The guard
checks `!query.created?.minValue || !query.created?.maxValue`; a present
`Date` is always truthy, so the guard fires exactly when a bound reads as
`undefined`, before any oracle call. -/
def partitionHelperFuel (oracle : RepoSearchQuery → Nat) (cap : Nat) :
    Nat → RepoSearchQuery →
      Except PartitionError (List SearchReposPartition) × List RepoSearchQuery
  | 0, _ => (.error .outOfFuel, [])
  | fuel + 1, q =>
    match q.created.minValue.read, q.created.maxValue.read with
    | some startMs, some endMs =>
      let count := oracle q
      if count ≤ cap then
        (.ok [⟨count, startMs, endMs⟩], [q])
      else
        let mid := midDate startMs endMs
        match partitionHelperFuel oracle cap fuel (leftSubQuery q mid) with
        | (.error e, ltr) => (.error e, q :: ltr)
        | (.ok lps, ltr) =>
          match partitionHelperFuel oracle cap fuel (rightSubQuery q mid) with
          | (.error e, rtr) => (.error e, q :: (ltr ++ rtr))
          | (.ok rps, rtr) => (.ok (lps ++ rps), q :: (ltr ++ rtr))
    | _, _ => (.error .configError, [])

/-- `partitionRepoSearchQuery` from src/github.ts (the `rootCall` flag only
controls a diagnostic log line and does not affect the result). -/
def partitionRepoSearchQuery (oracle : RepoSearchQuery → Nat) (cap fuel : Nat)
    (q : RepoSearchQuery) :
    Except PartitionError (List SearchReposPartition) × List RepoSearchQuery :=
  partitionHelperFuel oracle cap fuel q

/-- `SearchReposResultPartition` from src/github.ts: the batch yielded per
partition.  `percentageProgress` models the float division `countSoFar /
totalRepoCount` exactly in `ℚ`; repository items are abstracted by ids. -/
structure SearchReposResultPartition where
  totalCount : Nat
  countInPartition : Nat
  countProgress : Nat
  percentageProgress : ℚ
  startDate : Nat
  endDate : Nat
  repos : List Nat
deriving DecidableEq

/-- The query serialized for one partition's page fetch: `{...query,
created: {minValue: partition.startDate, maxValue: partition.endDate}}`. -/
def fetchQueryFor (q : RepoSearchQuery) (p : SearchReposPartition) :
    RepoSearchQuery :=
  { q with created := ⟨.val p.startDate, .val p.endDate⟩ }

/-- The body of the `for (const partition of partitions)` loop of
`searchRepos`: one batch per partition, threading the running count
`countSoFar` through the accumulator. -/
def mkBatches (total : Nat) (fetch : SearchReposPartition → List Nat) :
    Nat → List SearchReposPartition → List SearchReposResultPartition
  | _, [] => []
  | countSoFar, p :: ps =>
    let c := countSoFar + p.count
    ⟨total, p.count, c, (c : ℚ) / (total : ℚ), p.startDate, p.endDate, fetch p⟩ ::
      mkBatches total fetch c ps

/-- The `searchRepos` async generator from src/github.ts, run to
completion: partition the query with cap `GITHUB_SEARCH_MAX_PAGE_SIZE`,
sum the partition counts into `totalRepoCount`, then yield one progress-
annotated batch per partition (page fetches abstracted by `fetch`). -/
def searchReposBatches (oracle : RepoSearchQuery → Nat)
    (fetch : SearchReposPartition → List Nat) (fuel : Nat)
    (q : RepoSearchQuery) : Except PartitionError (List SearchReposResultPartition) :=
  match partitionHelperFuel oracle GITHUB_SEARCH_MAX_PAGE_SIZE fuel q with
  | (.error e, _) => .error e
  | (.ok ps, _) =>
    .ok (mkBatches ((ps.map (fun p => p.count)).sum) fetch 0 ps)

/-- One remote round-trip of a stream run: a count call (issued by the
partitioner) or a page fetch carrying the restricted query and the page
size `per_page = partition.count`. -/
inductive RemoteCall where
  | countCall : RepoSearchQuery → RemoteCall
  | fetchPage : RepoSearchQuery → Nat → RemoteCall
deriving DecidableEq

/-- Whether a remote call is a page fetch. -/
def RemoteCall.isFetch : RemoteCall → Bool
  | .countCall _ => false
  | .fetchPage _ _ => true

/-- Whether a remote call is a count call. -/
def RemoteCall.isCount : RemoteCall → Bool
  | .countCall _ => true
  | .fetchPage _ _ => false

/-- The remote calls issued by one run of the `searchRepos` generator whose
consumer stops after `k` batches.  The generator's body runs on demand: the
first pull performs the whole partitioning pass (all count calls, in
order), and each of the `k` pulls then fetches exactly one partition's page
before yielding; stopping after `k` batches therefore issues the fetches of
the first `k` partitions and nothing else. -/
def streamCallsUpTo (oracle : RepoSearchQuery → Nat) (fuel : Nat)
    (q : RepoSearchQuery) (k : Nat) : List RemoteCall :=
  match partitionHelperFuel oracle GITHUB_SEARCH_MAX_PAGE_SIZE fuel q with
  | (.error _, tr) => tr.map .countCall
  | (.ok ps, tr) =>
    tr.map .countCall ++
      (ps.take k).map (fun p => .fetchPage (fetchQueryFor q p) p.count)

/-- A query carrying only creation bounds (other keywords absent). -/
def mkQuery (a b : JSField Nat) : RepoSearchQuery := ⟨⟨a, b⟩, none, none, none⟩

/-- Creation timestamps of a small concrete repository population, used to
instantiate the count oracle. -/
def sampleTimes : List Nat := [0, 2, 4]

/-- A count oracle with GitHub's actual range semantics: `created:a..b`
matches creation dates with `a ≤ t ≤ b`, inclusive on both ends.  Counts
the members of `sampleTimes` in the query's creation range. -/
def incOracle (q : RepoSearchQuery) : Nat :=
  match q.created.minValue.read, q.created.maxValue.read with
  | some a, some b => (sampleTimes.filter (fun t => a ≤ t && t ≤ b)).length
  | _, _ => sampleTimes.length

/-- A count oracle obeying a consistent half-open convention: the count of
`created:a..b` is `b - a` (the cumulative function is the identity), so no
record is double-counted at a shared midpoint. -/
def measureOracle (q : RepoSearchQuery) : Nat :=
  match q.created.minValue.read, q.created.maxValue.read with
  | some a, some b => b - a
  | _, _ => 0

/-- A count oracle reporting five matches for every query. -/
def oracleConst5 (_ : RepoSearchQuery) : Nat := 5

/-- A count oracle reporting zero matches for every query. -/
def zeroOracle (_ : RepoSearchQuery) : Nat := 0

/-- Decidable equality for `Except`, needed to evaluate closed statements
about partitioner results. -/
instance exceptDecEq {ε α : Type} [DecidableEq ε] [DecidableEq α] :
    DecidableEq (Except ε α) := fun x y =>
  match x, y with
  | .error e, .error f =>
    if h : e = f then .isTrue (by rw [h])
    else .isFalse (fun c => h (Except.error.inj c))
  | .ok a, .ok b =>
    if h : a = b then .isTrue (by rw [h])
    else .isFalse (fun c => h (Except.ok.inj c))
  | .error _, .ok _ => .isFalse (fun c => Except.noConfusion c)
  | .ok _, .error _ => .isFalse (fun c => Except.noConfusion c)

/-- Overwrite a query's creation bounds with definite dates. -/
def setBounds (q : RepoSearchQuery) (a b : Nat) : RepoSearchQuery :=
  { q with created := ⟨.val a, .val b⟩ }

/-- The degenerate zero-width query used to exhibit non-termination. -/
def qZeroWidth : RepoSearchQuery := mkQuery (.val 0) (.val 0)

/-- The query of the spec's end-to-end scenario: creation range of width
250 and a width-proportional oracle. -/
def q250 : RepoSearchQuery := mkQuery (.val 0) (.val 250)

/-- The partition list `partition()` produces for `q250` under
`measureOracle` with cap 100. -/
def ps250 : List SearchReposPartition :=
  [⟨62, 0, 62⟩, ⟨63, 62, 125⟩, ⟨62, 125, 187⟩, ⟨63, 187, 250⟩]

/-- The count-oracle call trace of that partitioning run (pre-order:
parent, left subtree, right subtree). -/
def tr250 : List RepoSearchQuery :=
  [mkQuery (.val 0) (.val 250), mkQuery (.val 0) (.val 125),
   mkQuery (.val 0) (.val 62), mkQuery (.val 62) (.val 125),
   mkQuery (.val 125) (.val 250), mkQuery (.val 125) (.val 187),
   mkQuery (.val 187) (.val 250)]

/-- The batches the stream yields for `q250` under `measureOracle`. -/
def bs250 : List SearchReposResultPartition :=
  mkBatches 250 (fun _ => []) 0 ps250

/-- A query whose creation range has only its maximum bound (the
`minValue` key absent), exercising the keyword-dispatch fall-through. -/
def qOnlyMax : RepoSearchQuery := mkQuery .absent (.val 1580895202965)

/-- The query over the creation range from 0 to 4 used with the inclusive
oracle `incOracle`. -/
def q04 : RepoSearchQuery := mkQuery (.val 0) (.val 4)

/-- The sum of the leaf counts of a partitioning result, when it
succeeded. -/
def partitionCountSum
    (r : Except PartitionError (List SearchReposPartition)) : Option Nat :=
  match r with
  | .ok ps => some ((ps.map (fun p => p.count)).sum)
  | .error _ => none

/-- The list of partitions tiles the date range from `a` to `b`: it is the
in-order leaf frontier of a bisection tree over that range. -/
inductive Tiles : Nat → List SearchReposPartition → Nat → Prop where
  | leaf (c a b : Nat) : a ≤ b → Tiles a [⟨c, a, b⟩] b
  | node (a m b : Nat) (l r : List SearchReposPartition) :
      Tiles a l m → Tiles m r b → Tiles a (l ++ r) b

theorem Tiles.ne_nil {a b : Nat} {ps : List SearchReposPartition}
    (h : Tiles a ps b) : ps ≠ [] := by
  induction h with
  | leaf c a b hab => simp
  | node a m b l r hl hr ihl ihr =>
    intro hc
    rcases List.append_eq_nil.mp hc with ⟨h1, _⟩
    exact ihl h1

theorem Tiles.head_start {a b : Nat} {ps : List SearchReposPartition}
    (h : Tiles a ps b) : ∀ x ∈ ps.head?, x.startDate = a := by
  induction h with
  | leaf c a b hab => intro x hx; simp at hx; subst hx; rfl
  | node a m b l r hl hr ihl ihr =>
    intro x hx
    cases l with
    | nil => exact absurd rfl hl.ne_nil
    | cons p t =>
      simp only [List.cons_append, List.head?_cons, Option.mem_def,
        Option.some.injEq] at hx
      subst hx
      exact ihl p rfl

theorem Tiles.last_end {a b : Nat} {ps : List SearchReposPartition}
    (h : Tiles a ps b) : ∀ x ∈ ps.getLast?, x.endDate = b := by
  induction h with
  | leaf c a b hab => intro x hx; simp at hx; subst hx; rfl
  | node a m b l r hl hr ihl ihr =>
    intro x hx
    rw [List.getLast?_append_of_ne_nil _ hr.ne_nil] at hx
    exact ihr x hx

theorem Tiles.start_le {a b : Nat} {ps : List SearchReposPartition}
    (h : Tiles a ps b) : ∀ p ∈ ps, p.startDate ≤ p.endDate := by
  induction h with
  | leaf c a b hab => intro p hp; simp at hp; subst hp; exact hab
  | node a m b l r hl hr ihl ihr =>
    intro p hp
    rcases List.mem_append.mp hp with hm | hm
    · exact ihl p hm
    · exact ihr p hm

theorem Tiles.chain_end_eq_start {a b : Nat} {ps : List SearchReposPartition}
    (h : Tiles a ps b) :
    List.Chain' (fun p₁ p₂ => p₁.endDate = p₂.startDate) ps := by
  induction h with
  | leaf c a b hab => simp
  | node a m b l r hl hr ihl ihr =>
    rw [List.chain'_append]
    refine ⟨ihl, ihr, ?_⟩
    intro x hx y hy
    rw [hl.last_end x hx, hr.head_start y hy]

theorem Tiles.chain_start_mono {a b : Nat} {ps : List SearchReposPartition}
    (h : Tiles a ps b) :
    List.Chain' (fun p₁ p₂ => p₁.startDate ≤ p₂.startDate) ps := by
  induction h with
  | leaf c a b hab => simp
  | node a m b l r hl hr ihl ihr =>
    rw [List.chain'_append]
    refine ⟨ihl, ihr, ?_⟩
    intro x hx y hy
    have hxm : x.endDate = m := hl.last_end x hx
    have hym : y.startDate = m := hr.head_start y hy
    have hmem : x ∈ l := by
      rcases List.mem_getLast?_eq_getLast hx with ⟨hne, hx'⟩
      rw [hx']
      exact List.getLast_mem hne
    have := hl.start_le x hmem
    omega

/-- Soundness of the fueled partitioner: a successful run over a range with
both bounds set and `a ≤ b` produces a bisection-tree tiling of the range
whose leaves all respect the cap. -/
theorem partition_ok_tiles (oracle : RepoSearchQuery → Nat) (cap : Nat) :
    ∀ fuel (q : RepoSearchQuery) (a b : Nat) ps,
      q.created.minValue.read = some a →
      q.created.maxValue.read = some b →
      a ≤ b →
      (partitionHelperFuel oracle cap fuel q).1 = .ok ps →
      Tiles a ps b ∧ ∀ p ∈ ps, p.count ≤ cap := by
  intro fuel
  induction fuel with
  | zero =>
    intro q a b ps _ _ _ h
    simp [partitionHelperFuel] at h
  | succ n ih =>
    intro q a b ps ha hb hab h
    simp only [partitionHelperFuel, ha, hb] at h
    split at h
    · next hc =>
      simp only [Except.ok.injEq] at h
      subst h
      exact ⟨Tiles.leaf _ a b hab, by simpa using hc⟩
    · next hc =>
      split at h
      · simp at h
      · next lps ltr heql =>
        split at h
        · simp at h
        · next rps rtr heqr =>
          simp only [Except.ok.injEq] at h
          subst h
          have hmid1 : a ≤ midDate a b := by simp [midDate]
          have hmid2 : midDate a b ≤ b := by simp only [midDate]; omega
          have ihl := ih (leftSubQuery q (midDate a b)) a (midDate a b) lps
            (by simpa [leftSubQuery] using ha) rfl hmid1 (by rw [heql])
          have ihr := ih (rightSubQuery q (midDate a b)) (midDate a b) b rps
            rfl (by simpa [rightSubQuery] using hb) hmid2 (by rw [heqr])
          refine ⟨Tiles.node a (midDate a b) b lps rps ihl.1 ihr.1, ?_⟩
          intro p hp
          rcases List.mem_append.mp hp with hm | hm
          · exact ihl.2 p hm
          · exact ihr.2 p hm

theorem leftSubQuery_setBounds (q : RepoSearchQuery) (a b m : Nat) :
    leftSubQuery (setBounds q a b) m = setBounds q a m := rfl

theorem rightSubQuery_setBounds (q : RepoSearchQuery) (a b m : Nat) :
    rightSubQuery (setBounds q a b) m = setBounds q m b := rfl

/-- Completeness of the bisection under a consistent (half-open) boundary
convention: when the oracle's counts come from a monotone cumulative
function `F` as `F (max) - F (min)`, the leaf counts of a successful run
sum to the root count. -/
theorem partition_sum_halfOpen (oracle : RepoSearchQuery → Nat) (cap : Nat)
    (F : Nat → Nat) (hF : Monotone F) (q0 : RepoSearchQuery)
    (horacle : ∀ x y, oracle (setBounds q0 x y) = F y - F x) :
    ∀ fuel (a b : Nat) ps, a ≤ b →
      (partitionHelperFuel oracle cap fuel (setBounds q0 a b)).1 = .ok ps →
      (ps.map (fun p => p.count)).sum = F b - F a := by
  intro fuel
  induction fuel with
  | zero =>
    intro a b ps _ h
    simp [partitionHelperFuel] at h
  | succ n ih =>
    intro a b ps hab h
    simp only [partitionHelperFuel, setBounds, JSField.read] at h
    split at h
    · next hc =>
      simp only [Except.ok.injEq] at h
      subst h
      simp only [List.map_cons, List.map_nil, List.sum_cons, List.sum_nil,
        add_zero]
      exact horacle a b
    · next hc =>
      split at h
      · simp at h
      · next lps ltr heql =>
        split at h
        · simp at h
        · next rps rtr heqr =>
          simp only [Except.ok.injEq] at h
          subst h
          have hmid1 : a ≤ midDate a b := by simp [midDate]
          have hmid2 : midDate a b ≤ b := by simp only [midDate]; omega
          rw [show (leftSubQuery { q0 with created := ⟨.val a, .val b⟩ }
                (midDate a b)) = setBounds q0 a (midDate a b) from rfl] at heql
          rw [show (rightSubQuery { q0 with created := ⟨.val a, .val b⟩ }
                (midDate a b)) = setBounds q0 (midDate a b) b from rfl] at heqr
          have ihl := ih a (midDate a b) lps hmid1 (by rw [heql])
          have ihr := ih (midDate a b) b rps hmid2 (by rw [heqr])
          have hFa : F a ≤ F (midDate a b) := hF hmid1
          have hFb : F (midDate a b) ≤ F b := hF hmid2
          rw [List.map_append, List.sum_append, ihl, ihr]
          omega

/-- C3 (amended): on a zero-width creation range whose count still exceeds
the cap, both recursive sub-queries equal the query itself, so the
recursion never returns for any fuel bound and never raises an error: the
code recurses forever on a degenerate over-cap range instead of
terminating with a fatal error. -/
theorem partition_degenerate_loops (oracle : RepoSearchQuery → Nat)
    (cap : Nat) (q : RepoSearchQuery) (t : Nat)
    (hq : q.created = ⟨.val t, .val t⟩) (hc : cap < oracle q) :
    ∀ fuel, (partitionHelperFuel oracle cap fuel q).1 = .error .outOfFuel := by
  have hl : leftSubQuery q (midDate t t) = q := by
    cases q with
    | mk c lang st fo =>
      simp only at hq
      subst hq
      simp [leftSubQuery, midDate]
  intro fuel
  induction fuel with
  | zero => rfl
  | succ n ihn =>
    simp only [partitionHelperFuel, hq, JSField.read]
    rw [if_neg (Nat.not_le.mpr hc)]
    rcases hrec : partitionHelperFuel oracle cap n (leftSubQuery q (midDate t t))
      with ⟨res, tr⟩
    have hres : res = Except.error .outOfFuel := by
      rw [hl] at hrec
      rw [hrec] at ihn
      exact ihn
    subst hres
    simp [hrec]

theorem mkBatches_length (total : Nat) (fetch : SearchReposPartition → List Nat) :
    ∀ ps acc, (mkBatches total fetch acc ps).length = ps.length := by
  intro ps
  induction ps with
  | nil => intro acc; rfl
  | cons p t ihp => intro acc; simp [mkBatches, ihp]

theorem mkBatches_totalCount (total : Nat) (fetch : SearchReposPartition → List Nat) :
    ∀ ps acc, ∀ b ∈ mkBatches total fetch acc ps, b.totalCount = total := by
  intro ps
  induction ps with
  | nil => intro acc b hb; simp [mkBatches] at hb
  | cons p t ihp =>
    intro acc b hb
    simp only [mkBatches, List.mem_cons] at hb
    rcases hb with hb | hb
    · subst hb; rfl
    · exact ihp (acc + p.count) b hb

theorem mkBatches_countInPartition (total : Nat)
    (fetch : SearchReposPartition → List Nat) :
    ∀ ps acc,
      (mkBatches total fetch acc ps).map (fun b => b.countInPartition) =
        ps.map (fun p => p.count) := by
  intro ps
  induction ps with
  | nil => intro acc; rfl
  | cons p t ihp => intro acc; simp [mkBatches, ihp]

theorem mkBatches_pct (total : Nat) (fetch : SearchReposPartition → List Nat) :
    ∀ ps acc, ∀ b ∈ mkBatches total fetch acc ps,
      b.percentageProgress = (b.countProgress : ℚ) / (b.totalCount : ℚ) := by
  intro ps
  induction ps with
  | nil => intro acc b hb; simp [mkBatches] at hb
  | cons p t ihp =>
    intro acc b hb
    simp only [mkBatches, List.mem_cons] at hb
    rcases hb with hb | hb
    · subst hb; rfl
    · exact ihp (acc + p.count) b hb

theorem mkBatches_countProgress (total : Nat)
    (fetch : SearchReposPartition → List Nat) :
    ∀ ps acc i (hi : i < (mkBatches total fetch acc ps).length),
      ((mkBatches total fetch acc ps).get ⟨i, hi⟩).countProgress =
        acc + (((mkBatches total fetch acc ps).take (i + 1)).map
          (fun b => b.countInPartition)).sum := by
  intro ps
  induction ps with
  | nil => intro acc i hi; simp [mkBatches] at hi
  | cons p t ihp =>
    intro acc i hi
    cases i with
    | zero => simp [mkBatches]
    | succ j =>
      have hj : j < (mkBatches total fetch (acc + p.count) t).length := by
        simpa [mkBatches] using hi
      simp only [mkBatches, List.get_cons_succ, List.take_succ_cons,
        List.map_cons, List.sum_cons]
      rw [ihp (acc + p.count) j hj]
      omega

theorem mkBatches_progress_mono (total : Nat)
    (fetch : SearchReposPartition → List Nat) (ps : List SearchReposPartition)
    (acc : Nat) :
    List.Chain' (fun x y => x.countProgress ≤ y.countProgress)
      (mkBatches total fetch acc ps) := by
  rw [List.chain'_iff_get]
  intro i hlt
  have hi : i < (mkBatches total fetch acc ps).length := by omega
  have hi1 : i + 1 < (mkBatches total fetch acc ps).length := by omega
  rw [mkBatches_countProgress total fetch ps acc i hi,
    mkBatches_countProgress total fetch ps acc (i + 1) hi1]
  have hmap : i + 1 < ((mkBatches total fetch acc ps).map
      (fun b => b.countInPartition)).length := by
    simpa using hi1
  have hstep := List.sum_take_succ
    ((mkBatches total fetch acc ps).map (fun b => b.countInPartition)) (i + 1) hmap
  rw [← List.map_take, ← List.map_take] at hstep
  omega

theorem mkBatches_getLast_progress (total : Nat)
    (fetch : SearchReposPartition → List Nat) (ps : List SearchReposPartition)
    (acc : Nat) (h : mkBatches total fetch acc ps ≠ []) :
    ((mkBatches total fetch acc ps).getLast h).countProgress =
      acc + (ps.map (fun p => p.count)).sum := by
  have hlen : 0 < (mkBatches total fetch acc ps).length :=
    List.length_pos.mpr h
  rw [List.getLast_eq_getElem]
  have hi : (mkBatches total fetch acc ps).length - 1 <
      (mkBatches total fetch acc ps).length := by omega
  have hcp := mkBatches_countProgress total fetch ps acc
    ((mkBatches total fetch acc ps).length - 1) hi
  rw [List.get_eq_getElem] at hcp
  rw [hcp]
  have htake : (mkBatches total fetch acc ps).length - 1 + 1 =
      (mkBatches total fetch acc ps).length := by omega
  rw [htake, List.take_length, mkBatches_countInPartition]

/-- C4: the keyword serializer is claimed to satisfy the exact test table,
but the `"minValue" in keyword` dispatch falls through to the throwing
branch whenever the `minValue` key is absent: the table rows `{}` → `""`
and `{maxValue: 100}` → `"*..100"` (asserted by the repository's own
test/github.test.ts) instead throw `Error("Unexpected code execution
path.")`.  The rows whose `minValue` key is present do hold, and the
timestamp 2020-02-05T10:33:22.965+01:00 (epoch ms 1580895202965) renders
as 2020-02-05T09:33:22.965Z as claimed. -/
theorem keyword_table_dispatch_throws :
    repoSearchKeywordToString (.range ⟨.absent, .absent⟩) =
      .error "Unexpected code execution path." ∧
    repoSearchKeywordToString (.range ⟨.absent, .val (.num 100)⟩) =
      .error "Unexpected code execution path." ∧
    repoSearchKeywordToString (.range ⟨.val (.num 100), .absent⟩) =
      .ok "100..*" ∧
    repoSearchKeywordToString (.range ⟨.val (.num 100), .val (.num 200)⟩) =
      .ok "100..200" ∧
    repoSearchValueToString (some (.date 1580895202965)) =
      "2020-02-05T09:33:22.965Z" ∧
    zonedToMs 2020 2 5 10 33 22 965 60 = 1580895202965 :=
  ⟨rfl, rfl, rfl, rfl, rfl, rfl⟩

/-- C5: query serialization is claimed total on every well-formed Filter
with any subset of range bounds present, but a query whose creation range
keyword lacks its `minValue` key makes `repoSearchQueryToString` throw
(the error branch of the keyword-variant dispatch is reachable); a query
with both creation bounds serializes fine. -/
theorem query_serialization_not_total :
    repoSearchQueryToString qOnlyMax =
      .error "Unexpected code execution path." ∧
    repoSearchQueryToString q04 =
      .ok "created:1970-01-01T00:00:00.000Z..1970-01-01T00:00:00.004Z" :=
  ⟨rfl, rfl⟩

/-- C10 counterexample: a range keyword whose minimum is a `Date` at the
Unix epoch does NOT serialize that bound as the wildcard — a `Date` is an
object and objects are truthy in JavaScript — so `{minValue: new Date(0),
maxValue: 100}` renders the epoch timestamp, not `"*..100"`. -/
theorem epoch_date_bound_not_absent :
    repoSearchRangeKeywordToString ⟨.val (.date 0), .val (.num 100)⟩ =
      "1970-01-01T00:00:00.000Z..100" ∧
    ("1970-01-01T00:00:00.000Z..100" : String) ≠ "*..100" :=
  ⟨rfl, by decide⟩

/-- C10 amended: bound presence is tested by truthiness, so a bound equal
to the falsy number 0 is treated as absent — `{minValue: 0, maxValue:
100}` serializes to `"*..100"`, and a range keyword whose present bounds
are all falsy numbers serializes to the empty string — but a `Date` object
is always truthy, so an epoch `Date` bound renders as its ISO string. -/
theorem falsy_number_bound_treated_absent :
    repoSearchRangeKeywordToString ⟨.val (.num 0), .val (.num 100)⟩ =
      "*..100" ∧
    repoSearchRangeKeywordToString ⟨.val (.num 0), .absent⟩ = "" ∧
    repoSearchRangeKeywordToString ⟨.val (.num 0), .val (.num 0)⟩ = "" ∧
    RepoSearchValue.truthy (.date 0) = true ∧
    repoSearchValueToString (some (.date 0)) = "1970-01-01T00:00:00.000Z" :=
  ⟨rfl, rfl, rfl, rfl, rfl⟩

/-- C6: when the root count is at most the cap, `partition()` returns
exactly one Partition spanning the full original creation range and the
count-oracle call trace is exactly the single initial measurement. -/
theorem partition_under_cap_single (oracle : RepoSearchQuery → Nat)
    (cap fuel : Nat) (q : RepoSearchQuery) (a b : Nat)
    (ha : q.created.minValue.read = some a)
    (hb : q.created.maxValue.read = some b)
    (hc : oracle q ≤ cap) :
    partitionHelperFuel oracle cap (fuel + 1) q = (.ok [⟨oracle q, a, b⟩], [q]) := by
  simp [partitionHelperFuel, ha, hb, hc]

/-- Witness for C6: the width-measuring oracle reports 50 ≤ 100 on the
range from 0 to 50, and partitioning returns the single full-range leaf
with a one-call trace. -/
theorem partition_under_cap_single_witness :
    (mkQuery (.val 0) (.val 50)).created.minValue.read = some 0 ∧
    (mkQuery (.val 0) (.val 50)).created.maxValue.read = some 50 ∧
    measureOracle (mkQuery (.val 0) (.val 50)) ≤ 100 ∧
    partitionHelperFuel measureOracle 100 10 (mkQuery (.val 0) (.val 50)) =
      (.ok [⟨measureOracle (mkQuery (.val 0) (.val 50)), 0, 50⟩],
        [mkQuery (.val 0) (.val 50)]) :=
  ⟨rfl, rfl, by decide,
    partition_under_cap_single measureOracle 100 9 (mkQuery (.val 0) (.val 50))
      0 50 rfl rfl (by decide)⟩

/-- C7: a query whose creation range is missing a bound makes the
partitioner fail with the configuration error synchronously: no oracle
call is recorded, no partition is produced, stream construction fails the
same way, and a consumer observing any number of batches sees zero remote
calls. -/
theorem partition_missing_bound_errors (oracle : RepoSearchQuery → Nat)
    (fetch : SearchReposPartition → List Nat) (cap fuel k : Nat)
    (q : RepoSearchQuery)
    (h : q.created.minValue.read = none ∨ q.created.maxValue.read = none) :
    partitionHelperFuel oracle cap (fuel + 1) q = (.error .configError, []) ∧
    searchReposBatches oracle fetch (fuel + 1) q = .error .configError ∧
    streamCallsUpTo oracle (fuel + 1) q k = [] := by
  have h1 : ∀ c, partitionHelperFuel oracle c (fuel + 1) q =
      (.error .configError, []) := by
    intro c
    rcases h with h | h
    · simp [partitionHelperFuel, h]
    · rcases hm : q.created.minValue.read with _ | a
      · simp [partitionHelperFuel, hm]
      · simp [partitionHelperFuel, hm, h]
  refine ⟨h1 cap, ?_, ?_⟩
  · unfold searchReposBatches
    rw [h1 _]
  · unfold streamCallsUpTo
    rw [h1 _]
    rfl

/-- Witness for C7: the query with only a maximum creation bound fails
with the configuration error, produces no partitions, and issues no
remote call. -/
theorem partition_missing_bound_errors_witness :
    ((mkQuery .absent (.val 4)).created.minValue.read = none ∨
      (mkQuery .absent (.val 4)).created.maxValue.read = none) ∧
    partitionHelperFuel incOracle 100 10 (mkQuery .absent (.val 4)) =
      (.error .configError, []) ∧
    searchReposBatches incOracle (fun _ => []) 10 (mkQuery .absent (.val 4)) =
      .error .configError ∧
    streamCallsUpTo incOracle 10 (mkQuery .absent (.val 4)) 3 = [] :=
  ⟨Or.inl rfl,
    (partition_missing_bound_errors incOracle (fun _ => []) 100 9 3
      (mkQuery .absent (.val 4)) (Or.inl rfl)).1,
    (partition_missing_bound_errors incOracle (fun _ => []) 100 9 3
      (mkQuery .absent (.val 4)) (Or.inl rfl)).2.1,
    (partition_missing_bound_errors incOracle (fun _ => []) 100 9 3
      (mkQuery .absent (.val 4)) (Or.inl rfl)).2.2⟩

/-- C3 counterexample: on the zero-width range (both creation bounds equal
to epoch 0) with a constant count of 5 exceeding the cap 1, both recursive
sub-queries equal the original query, so `partition()` does not terminate
with a fatal error: a depth-8 bounded run still makes no progress and in
particular never raises the configuration error. -/
theorem degenerate_range_no_fatal_error :
    leftSubQuery qZeroWidth (midDate 0 0) = qZeroWidth ∧
    rightSubQuery qZeroWidth (midDate 0 0) = qZeroWidth ∧
    1 < oracleConst5 qZeroWidth ∧
    (partitionHelperFuel oracleConst5 1 8 qZeroWidth).1 = .error .outOfFuel ∧
    (partitionHelperFuel oracleConst5 1 8 qZeroWidth).1 ≠ .error .configError :=
  ⟨rfl, rfl, by decide, by decide, by decide⟩

/-- Witness for C3's amended statement: applied to the concrete zero-width
query, the constant-5 oracle and cap 1, with recursion depth bound 5. -/
theorem partition_degenerate_loops_witness :
    qZeroWidth.created = ⟨.val 0, .val 0⟩ ∧
    1 < oracleConst5 qZeroWidth ∧
    (partitionHelperFuel oracleConst5 1 5 qZeroWidth).1 = .error .outOfFuel :=
  ⟨rfl, by decide,
    partition_degenerate_loops oracleConst5 1 qZeroWidth 0 rfl (by decide) 5⟩

/-- C2: when the root count exceeds the cap (and the creation range is
well-formed), every partition of a completed run has count at most the
cap, the partitions are in non-decreasing date order (consecutive leaves
share their boundary), and the result is the concatenation of the left
branch's partitions (over the range up to the midpoint `start + (end -
start) / 2`) before the right branch's. -/
theorem partition_over_cap_leaves (oracle : RepoSearchQuery → Nat)
    (cap fuel : Nat) (q : RepoSearchQuery) (a b : Nat)
    (ps : List SearchReposPartition)
    (ha : q.created.minValue.read = some a)
    (hb : q.created.maxValue.read = some b)
    (hab : a ≤ b) (hroot : cap < oracle q)
    (h : (partitionHelperFuel oracle cap (fuel + 1) q).1 = .ok ps) :
    (∀ p ∈ ps, p.count ≤ cap) ∧
    List.Chain' (fun p₁ p₂ => p₁.startDate ≤ p₂.startDate) ps ∧
    List.Chain' (fun p₁ p₂ => p₁.endDate = p₂.startDate) ps ∧
    ∃ lps rps,
      (partitionHelperFuel oracle cap fuel (leftSubQuery q (midDate a b))).1 =
        .ok lps ∧
      (partitionHelperFuel oracle cap fuel (rightSubQuery q (midDate a b))).1 =
        .ok rps ∧
      ps = lps ++ rps := by
  have hmain := partition_ok_tiles oracle cap (fuel + 1) q a b ps ha hb hab h
  refine ⟨hmain.2, hmain.1.chain_start_mono, hmain.1.chain_end_eq_start, ?_⟩
  simp only [partitionHelperFuel, ha, hb] at h
  rw [if_neg (Nat.not_le.mpr hroot)] at h
  split at h
  · simp at h
  · next lps ltr heql =>
    split at h
    · simp at h
    · next rps rtr heqr =>
      simp only [Except.ok.injEq] at h
      exact ⟨lps, rps, by rw [heql], by rw [heqr], h.symm⟩

/-- Witness for C2: the inclusive oracle over creation timestamps 0, 2, 4
with cap 1 has root count 3 over the range from 0 to 4; the completed run
returns four capped leaves in non-decreasing date order. -/
theorem partition_over_cap_leaves_witness :
    q04.created.minValue.read = some 0 ∧
    q04.created.maxValue.read = some 4 ∧
    (0 : Nat) ≤ 4 ∧
    1 < incOracle q04 ∧
    (partitionHelperFuel incOracle 1 10 q04).1 =
      .ok [⟨1, 0, 1⟩, ⟨1, 1, 2⟩, ⟨1, 2, 3⟩, ⟨1, 3, 4⟩] ∧
    (∀ p ∈ [(⟨1, 0, 1⟩ : SearchReposPartition), ⟨1, 1, 2⟩, ⟨1, 2, 3⟩,
        ⟨1, 3, 4⟩], p.count ≤ 1) ∧
    List.Chain' (fun p₁ p₂ => p₁.startDate ≤ p₂.startDate)
      [(⟨1, 0, 1⟩ : SearchReposPartition), ⟨1, 1, 2⟩, ⟨1, 2, 3⟩, ⟨1, 3, 4⟩] :=
  ⟨rfl, rfl, by decide, by decide, rfl,
    (partition_over_cap_leaves incOracle 1 9 q04 0 4
      [⟨1, 0, 1⟩, ⟨1, 1, 2⟩, ⟨1, 2, 3⟩, ⟨1, 3, 4⟩]
      rfl rfl (by decide) (by decide) rfl).1,
    (partition_over_cap_leaves incOracle 1 9 q04 0 4
      [⟨1, 0, 1⟩, ⟨1, 1, 2⟩, ⟨1, 2, 3⟩, ⟨1, 3, 4⟩]
      rfl rfl (by decide) (by decide) rfl).2.1⟩

/-- C1 counterexample: with the cap 1 and GitHub's inclusive `min..max`
range semantics (oracle counting the timestamps 0, 2, 4 inside the closed
range), the run over the range from 0 to 4 returns leaves whose counts
sum to 4, while the root count is 3: the match created exactly at the
shared midpoint 2 is double-counted, so the claimed equality fails. -/
theorem partition_sum_exceeds_root_inclusive :
    partitionCountSum (partitionHelperFuel incOracle 1 10 q04).1 = some 4 ∧
    incOracle q04 = 3 :=
  ⟨rfl, rfl⟩

/-- C1 (amended): partition completeness holds under a consistent
boundary-inclusivity convention: when the oracle's counts come from a
monotone cumulative function `F` as `F (max) - F (min)` (a min-inclusive,
max-exclusive convention, so midpoint matches are not double-counted), the
sum of the leaf counts of a completed run equals the root count; with
inclusive-on-both-ends semantics the sum can exceed the root count. -/
theorem partition_complete_halfOpen (oracle : RepoSearchQuery → Nat)
    (cap fuel : Nat) (F : Nat → Nat) (q : RepoSearchQuery) (a b : Nat)
    (ps : List SearchReposPartition) (hF : Monotone F)
    (hq : q.created = ⟨.val a, .val b⟩)
    (horacle : ∀ x y, oracle (setBounds q x y) = F y - F x)
    (hab : a ≤ b)
    (h : (partitionHelperFuel oracle cap fuel q).1 = .ok ps) :
    (ps.map (fun p => p.count)).sum = oracle q := by
  have hqq : setBounds q a b = q := by
    cases q with
    | mk c lang st fo =>
      simp only at hq
      subst hq
      rfl
  have hsum := partition_sum_halfOpen oracle cap F hF q horacle fuel a b ps hab
    (by rw [hqq]; exact h)
  rw [hsum, ← horacle a b]
  exact congrArg oracle hqq

/-- Witness for C1's amended statement: the width-measuring oracle (the
cumulative function is the identity) on the range from 0 to 250 with cap
100 yields leaves with counts 62, 63, 62, 63 summing to the root count
250. -/
theorem partition_complete_halfOpen_witness :
    Monotone (fun t : Nat => t) ∧
    q250.created = ⟨.val 0, .val 250⟩ ∧
    (∀ x y, measureOracle (setBounds q250 x y) =
      (fun t : Nat => t) y - (fun t : Nat => t) x) ∧
    (0 : Nat) ≤ 250 ∧
    (partitionHelperFuel measureOracle 100 10 q250).1 = .ok ps250 ∧
    (ps250.map (fun p => p.count)).sum = measureOracle q250 :=
  ⟨fun _ _ hle => hle, rfl, fun _ _ => rfl, by decide, rfl,
    partition_complete_halfOpen measureOracle 100 10 (fun t => t) q250 0 250
      ps250 (fun _ _ hle => hle) rfl (fun _ _ => rfl) (by decide) rfl⟩

/-- C8 counterexample: a query matching zero repositories yields a final
(and only) batch whose `percentageProgress` is the degenerate division
0 / 0 — `NaN` in JavaScript, 0 in this model — which is not 1, so the
final-batch clause of the claim fails when the total count is zero. -/
theorem stream_zero_total_last_pct_ne_one :
    searchReposBatches zeroOracle (fun _ => []) 5 q04 =
      .ok [⟨0, 0, 0, (0 : ℚ) / (0 : ℚ), 0, 4, []⟩] ∧
    ((0 : ℚ) / (0 : ℚ) ≠ 1) :=
  ⟨rfl, by norm_num⟩

/-- C8 (amended): across the batches of one completed stream run,
`countProgress` equals the running sum of `countInPartition` over the
batches so far (inclusive), hence is non-decreasing; every batch's
`totalCount` is the sum of all partition counts, fixed by the partitioning
pass; `percentageProgress` equals `countProgress / totalCount`; and,
provided the total count is positive (JavaScript yields `NaN`, not 1, when
it is zero), the final batch's `percentageProgress` equals 1. -/
theorem stream_progress_invariants (oracle : RepoSearchQuery → Nat)
    (fetch : SearchReposPartition → List Nat) (fuel : Nat)
    (q : RepoSearchQuery) (ps : List SearchReposPartition)
    (bs : List SearchReposResultPartition)
    (hps : (partitionHelperFuel oracle GITHUB_SEARCH_MAX_PAGE_SIZE fuel q).1 =
      .ok ps)
    (hbs : searchReposBatches oracle fetch fuel q = .ok bs) :
    (∀ i (hi : i < bs.length),
      (bs.get ⟨i, hi⟩).countProgress =
        ((bs.take (i + 1)).map (fun x => x.countInPartition)).sum) ∧
    List.Chain' (fun x y => x.countProgress ≤ y.countProgress) bs ∧
    (∀ x ∈ bs, x.totalCount = (ps.map (fun p => p.count)).sum) ∧
    (∀ x ∈ bs, x.percentageProgress =
      (x.countProgress : ℚ) / (x.totalCount : ℚ)) ∧
    (0 < (ps.map (fun p => p.count)).sum →
      ∀ hne : bs ≠ [], (bs.getLast hne).percentageProgress = 1) := by
  have hbs' : bs = mkBatches ((ps.map (fun p => p.count)).sum) fetch 0 ps := by
    rcases hpair : partitionHelperFuel oracle GITHUB_SEARCH_MAX_PAGE_SIZE fuel q
      with ⟨res, tr⟩
    rw [hpair] at hps
    simp only at hps
    subst hps
    unfold searchReposBatches at hbs
    rw [hpair] at hbs
    simp only [Except.ok.injEq] at hbs
    exact hbs.symm
  subst hbs'
  refine ⟨?_, mkBatches_progress_mono _ _ _ _, mkBatches_totalCount _ _ _ _,
    mkBatches_pct _ _ _ _, ?_⟩
  · intro i hi
    have hcp := mkBatches_countProgress _ fetch ps 0 i hi
    simpa using hcp
  · intro hpos hne
    have hl := mkBatches_getLast_progress _ fetch ps 0 hne
    have hpct := mkBatches_pct _ fetch ps 0 _ (List.getLast_mem hne)
    have htot := mkBatches_totalCount _ fetch ps 0 _ (List.getLast_mem hne)
    rw [hpct, htot, hl, zero_add, div_self]
    exact Nat.cast_ne_zero.mpr (Nat.pos_iff_ne_zero.mp hpos)

/-- Witness for C8's amended statement: the end-to-end scenario (root
count 250, cap 100) produces four batches whose final percentage is
exactly 1. -/
theorem stream_progress_invariants_witness :
    (partitionHelperFuel measureOracle GITHUB_SEARCH_MAX_PAGE_SIZE 10 q250).1 =
      .ok ps250 ∧
    searchReposBatches measureOracle (fun _ => []) 10 q250 = .ok bs250 ∧
    0 < (ps250.map (fun p => p.count)).sum ∧
    (bs250.getLast (by decide)).percentageProgress = 1 :=
  ⟨rfl, rfl, by decide,
    (stream_progress_invariants measureOracle (fun _ => []) 10 q250 ps250 bs250
      rfl rfl).2.2.2.2 (by decide) (by decide)⟩

theorem filter_isFetch_countCalls (l : List RepoSearchQuery) :
    (l.map RemoteCall.countCall).filter RemoteCall.isFetch = [] := by
  induction l with
  | nil => rfl
  | cons x t ihl => simp [List.filter_cons, RemoteCall.isFetch, ihl]

theorem filter_isCount_countCalls (l : List RepoSearchQuery) :
    (l.map RemoteCall.countCall).filter RemoteCall.isCount =
      l.map RemoteCall.countCall := by
  induction l with
  | nil => rfl
  | cons x t ihl => simp [List.filter_cons, RemoteCall.isCount, ihl]

theorem filter_isFetch_fetchPages (q : RepoSearchQuery)
    (l : List SearchReposPartition) :
    (l.map (fun p => RemoteCall.fetchPage (fetchQueryFor q p) p.count)).filter
      RemoteCall.isFetch =
      l.map (fun p => RemoteCall.fetchPage (fetchQueryFor q p) p.count) := by
  induction l with
  | nil => rfl
  | cons x t ihl => simp [List.filter_cons, RemoteCall.isFetch, ihl]

theorem filter_isCount_fetchPages (q : RepoSearchQuery)
    (l : List SearchReposPartition) :
    (l.map (fun p => RemoteCall.fetchPage (fetchQueryFor q p) p.count)).filter
      RemoteCall.isCount = [] := by
  induction l with
  | nil => rfl
  | cons x t ihl => simp [List.filter_cons, RemoteCall.isCount, ihl]

/-- C9: a consumer stopping after `k` batches (with `k` at most the number
of partitions) observes a call trace consisting of the partitioning pass's
count calls followed by exactly `k` page fetches — one per consumed batch,
with page size equal to the partition's count — so the run issues exactly
`k` fetch calls, no count call beyond the initial partitioning pass, and
every count call precedes every fetch call (no partition is fetched before
the complete partition list is computed). -/
theorem stream_calls_lazy (oracle : RepoSearchQuery → Nat) (fuel k : Nat)
    (q : RepoSearchQuery) (ps : List SearchReposPartition)
    (tr : List RepoSearchQuery)
    (hpart : partitionHelperFuel oracle GITHUB_SEARCH_MAX_PAGE_SIZE fuel q =
      (.ok ps, tr))
    (hk : k ≤ ps.length) :
    streamCallsUpTo oracle fuel q k =
      tr.map RemoteCall.countCall ++
        (ps.take k).map (fun p => RemoteCall.fetchPage (fetchQueryFor q p) p.count) ∧
    ((streamCallsUpTo oracle fuel q k).filter RemoteCall.isFetch).length = k ∧
    ((streamCallsUpTo oracle fuel q k).filter RemoteCall.isCount).length =
      tr.length ∧
    ∃ cs fs, streamCallsUpTo oracle fuel q k = cs ++ fs ∧
      (∀ c ∈ cs, c.isCount = true) ∧ (∀ f ∈ fs, f.isFetch = true) := by
  have he : streamCallsUpTo oracle fuel q k =
      tr.map RemoteCall.countCall ++
        (ps.take k).map (fun p => RemoteCall.fetchPage (fetchQueryFor q p) p.count) := by
    unfold streamCallsUpTo
    rw [hpart]
  refine ⟨he, ?_, ?_, ?_⟩
  · rw [he, List.filter_append, filter_isFetch_countCalls,
      filter_isFetch_fetchPages, List.nil_append, List.length_map,
      List.length_take]
    omega
  · rw [he, List.filter_append, filter_isCount_countCalls,
      filter_isCount_fetchPages, List.append_nil, List.length_map]
  · refine ⟨tr.map RemoteCall.countCall,
      (ps.take k).map (fun p => RemoteCall.fetchPage (fetchQueryFor q p) p.count),
      he, ?_, ?_⟩
    · intro c hc
      rcases List.mem_map.mp hc with ⟨x, _, hx⟩
      rw [← hx]
      rfl
    · intro f hf
      rcases List.mem_map.mp hf with ⟨x, _, hx⟩
      rw [← hx]
      rfl

/-- Witness for C9: in the end-to-end scenario, stopping after 2 of the 4
batches issues exactly 2 fetch calls and all 7 partitioning count calls. -/
theorem stream_calls_lazy_witness :
    partitionHelperFuel measureOracle GITHUB_SEARCH_MAX_PAGE_SIZE 10 q250 =
      (.ok ps250, tr250) ∧
    (2 : Nat) ≤ ps250.length ∧
    ((streamCallsUpTo measureOracle 10 q250 2).filter RemoteCall.isFetch).length = 2 ∧
    ((streamCallsUpTo measureOracle 10 q250 2).filter RemoteCall.isCount).length =
      tr250.length :=
  ⟨rfl, by decide,
    (stream_calls_lazy measureOracle 10 2 q250 ps250 tr250 rfl (by decide)).2.1,
    (stream_calls_lazy measureOracle 10 2 q250 ps250 tr250 rfl (by decide)).2.2.1⟩

end GithubDownloader
